import Mathlib

/-!
Verification of the froglol URL-shortcut redirector core against its
natural-language specification.

The development is a shallow embedding of the Python source:

* strings are modelled as `List Char` (`Str`); only the ASCII behaviour of
  Python's `str.strip` / `str.split` / `str.lower` is relevant to the spec,
  so whitespace and lower-casing are modelled on ASCII characters;
* `app/services/redirect_service.py` is embedded by `parse_query`,
  `substitute_args`, `find_bookmark_by_name_or_alias`, `increment_usage`
  and `process_redirect`;
* `app/services/fuzzy_matcher.py` is embedded by `find_similar_commands`;
  the rapidfuzz similarity metric is kept abstract (a parameter
  `scoreOf : Str → Str → ℚ`), since every claim about the fuzzy engine is
  structural (threshold filtering, ordering, deduplication, truncation);
* the database is a pair of tables (`DB`); SQLAlchemy `filter_by(...).first()`
  queries become `List.find?`, and `commit` of an in-place update becomes
  returning the updated table.
-/

/-- Strings of the embedded program. -/
abbrev Str := List Char

/-- ASCII whitespace, as recognised by Python `str.strip()` / `str.split()`. -/
def pyIsSpace (c : Char) : Bool :=
  c = ' ' || c = '\t' || c = '\n' || c = '\r' || c = '\x0b' || c = '\x0c'

/-- Python `str.lower()` (ASCII fragment). -/
def pyLower (s : Str) : Str := s.map Char.toLower

/-- Python `str.strip()`: drop leading and trailing whitespace. -/
def pyStrip (s : Str) : Str :=
  ((s.dropWhile pyIsSpace).reverse.dropWhile pyIsSpace).reverse

/-- Python `str.split(maxsplit=1)` (whitespace separator): skip leading
whitespace, take the first whitespace-free token, skip the following
whitespace run, and keep the remainder verbatim as the second part. -/
def splitMax1 (s : Str) : List Str :=
  let t := s.dropWhile pyIsSpace
  if t = [] then []
  else
    let cmd := t.takeWhile (fun c => !pyIsSpace c)
    let rest := (t.dropWhile (fun c => !pyIsSpace c)).dropWhile pyIsSpace
    if rest = [] then [cmd] else [cmd, rest]

/-- Embedding of `redirect_service.parse_query`:
`parts = query.strip().split(maxsplit=1)`,
`command = parts[0].lower() if parts else ""`,
`args = parts[1] if len(parts) > 1 else ""`. -/
def parse_query (q : Str) : Str × Str :=
  match splitMax1 (pyStrip q) with
  | [] => ([], [])
  | [c] => (pyLower c, [])
  | c :: a :: _ => (pyLower c, a)

/-- Python `template.replace("%s", rep)`: replace every non-overlapping
occurrence of the marker `%s`, scanning left to right. -/
def replaceMarker (rep : Str) : Str → Str
  | [] => []
  | '%' :: 's' :: rest => rep ++ replaceMarker rep rest
  | c :: rest => c :: replaceMarker rep rest

/-- Uppercase hexadecimal digit, as produced by `urllib.parse.quote`. -/
def hexDigitU (n : Nat) : Char :=
  if n < 10 then Char.ofNat (48 + n) else Char.ofNat (55 + n)

/-- UTF-8 encoding of one character, as a list of byte values. -/
def utf8Bytes (c : Char) : List Nat :=
  let n := c.toNat
  if n < 0x80 then [n]
  else if n < 0x800 then [0xC0 + n / 0x40, 0x80 + n % 0x40]
  else if n < 0x10000 then
    [0xE0 + n / 0x1000, 0x80 + (n / 0x40) % 0x40, 0x80 + n % 0x40]
  else
    [0xF0 + n / 0x40000, 0x80 + (n / 0x1000) % 0x40,
     0x80 + (n / 0x40) % 0x40, 0x80 + n % 0x40]

/-- Characters `urllib.parse.quote` never encodes (`ALWAYS_SAFE`):
ASCII letters, digits, and `_.-~`. -/
def isAlwaysSafe (c : Char) : Bool :=
  ('a' ≤ c && c ≤ 'z') || ('A' ≤ c && c ≤ 'Z') || ('0' ≤ c && c ≤ '9') ||
  c = '_' || c = '.' || c = '-' || c = '~'

/-- Per-character action of `urllib.parse.quote_plus` with empty `safe`:
space becomes `+`, always-safe characters stay, everything else is UTF-8
encoded and each byte is percent-encoded with uppercase hex. -/
def quotePlusChar (c : Char) : Str :=
  if c = ' ' then ['+']
  else if isAlwaysSafe c then [c]
  else ((utf8Bytes c).map (fun b => ['%', hexDigitU (b / 16), hexDigitU (b % 16)])).flatten

/-- Embedding of `urllib.parse.quote_plus` (default arguments). -/
def quotePlus (s : Str) : Str := (s.map quotePlusChar).flatten

/-- Embedding of `redirect_service.substitute_args`: empty args replace the
marker by the empty string, otherwise by the form-encoded args. -/
def substitute_args (url_template : Str) (args : Str) : Str :=
  if args = [] then replaceMarker [] url_template
  else replaceMarker (quotePlus args) url_template

/-- Specification-side view of a template: the segments strictly between
the non-overlapping occurrences of the marker `%s`, left to right. -/
def splitOnMarker : Str → List Str
  | [] => [[]]
  | '%' :: 's' :: rest => [] :: splitOnMarker rest
  | c :: rest =>
    match splitOnMarker rest with
    | [] => [[c]]
    | seg :: segs => (c :: seg) :: segs

/-- Interleave a replacement string between consecutive segments. -/
def interMarker (rep : Str) : List Str → Str
  | [] => []
  | [x] => x
  | x :: xs => x ++ rep ++ interMarker rep xs

/-- Decide whether a string contains the marker `%s`. -/
def containsMarker : Str → Bool
  | [] => false
  | '%' :: 's' :: _ => true
  | _ :: rest => containsMarker rest

theorem replaceMarker_cons_ne (rep : Str) (c : Char) (rest : Str)
    (h : ∀ r1, c = '%' → rest = 's' :: r1 → False) :
    replaceMarker rep (c :: rest) = c :: replaceMarker rep rest := by
  rw [replaceMarker.eq_def]
  split
  · simp_all
  · rename_i rest1 heq
    rw [List.cons.injEq] at heq
    exact (h rest1 heq.1 heq.2).elim
  · rename_i c1 rest1 hne heq
    rw [List.cons.injEq] at heq
    rw [heq.1, heq.2]

theorem splitOnMarker_cons_ne (c : Char) (rest : Str)
    (h : ∀ r1, c = '%' → rest = 's' :: r1 → False) :
    splitOnMarker (c :: rest) =
      match splitOnMarker rest with
      | [] => [[c]]
      | seg :: segs => (c :: seg) :: segs := by
  rw [splitOnMarker.eq_def]
  split
  · simp_all
  · rename_i rest1 heq
    rw [List.cons.injEq] at heq
    exact (h rest1 heq.1 heq.2).elim
  · rename_i c1 rest1 hne heq
    rw [List.cons.injEq] at heq
    rw [heq.1, heq.2]

theorem containsMarker_cons_ne (c : Char) (rest : Str)
    (h : ∀ r1, c = '%' → rest = 's' :: r1 → False) :
    containsMarker (c :: rest) = containsMarker rest := by
  rw [containsMarker.eq_def]
  split
  · simp_all
  · rename_i rest1 heq
    rw [List.cons.injEq] at heq
    exact (h rest1 heq.1 heq.2).elim
  · rename_i c1 rest1 hne heq
    rw [List.cons.injEq] at heq
    rw [heq.2]

theorem splitOnMarker_ne_nil (s : Str) : splitOnMarker s ≠ [] := by
  induction s using splitOnMarker.induct with
  | case1 => simp [splitOnMarker]
  | case2 rest ih => simp [splitOnMarker]
  | case3 c rest h hs => simp [splitOnMarker_cons_ne c rest h, hs]
  | case4 c rest h seg segs hs ih => simp [splitOnMarker_cons_ne c rest h, hs]

/-- Replacing the marker is exactly: interleave the replacement between the
segments of the template. Every occurrence is substituted identically. -/
theorem replaceMarker_eq_interMarker (rep : Str) (s : Str) :
    replaceMarker rep s = interMarker rep (splitOnMarker s) := by
  induction s using splitOnMarker.induct with
  | case1 => simp [replaceMarker, splitOnMarker, interMarker]
  | case2 rest ih =>
    rw [show replaceMarker rep ('%' :: 's' :: rest) = rep ++ replaceMarker rep rest from rfl,
      show splitOnMarker ('%' :: 's' :: rest) = [] :: splitOnMarker rest from rfl, ih]
    cases hs : splitOnMarker rest with
    | nil => exact absurd hs (splitOnMarker_ne_nil rest)
    | cons seg segs => simp [interMarker]
  | case3 c rest h hs =>
    exact absurd hs (splitOnMarker_ne_nil rest)
  | case4 c rest h seg segs hs ih =>
    rw [replaceMarker_cons_ne rep c rest h, splitOnMarker_cons_ne c rest h, hs, ih, hs]
    cases segs <;> simp [interMarker]

/-- A template with no marker is left unchanged by marker replacement. -/
theorem replaceMarker_no_marker (rep : Str) (s : Str)
    (h : containsMarker s = false) : replaceMarker rep s = s := by
  induction s using splitOnMarker.induct with
  | case1 => simp [replaceMarker]
  | case2 rest ih => simp [containsMarker] at h
  | case3 c rest hne hs ih =>
    rw [containsMarker_cons_ne c rest hne] at h
    rw [replaceMarker_cons_ne rep c rest hne, ih h]
  | case4 c rest hne seg segs hs ih =>
    rw [containsMarker_cons_ne c rest hne] at h
    rw [replaceMarker_cons_ne rep c rest hne, ih h]

/-- Claim-side description of the parser (claim C6): trim surrounding
whitespace; the command is the first whitespace-free token, lower-cased
(empty for empty or whitespace-only input); the args are everything after
the first whitespace run, verbatim. -/
def parseSpecC6 (q : Str) : Str × Str :=
  let t := pyStrip q
  if t = [] then ([], [])
  else (pyLower (t.takeWhile (fun c => !pyIsSpace c)),
        (t.dropWhile (fun c => !pyIsSpace c)).dropWhile pyIsSpace)

theorem pyStrip_eq_rdropWhile (q : Str) :
    pyStrip q = List.rdropWhile pyIsSpace (q.dropWhile pyIsSpace) := rfl

theorem dropWhile_pyStrip (q : Str) :
    (pyStrip q).dropWhile pyIsSpace = pyStrip q := by
  rcases h : pyStrip q with _ | ⟨c, l⟩
  · rfl
  · have hpre : pyStrip q <+: q.dropWhile pyIsSpace := by
      rw [pyStrip_eq_rdropWhile]
      exact List.rdropWhile_prefix pyIsSpace (q.dropWhile pyIsSpace)
    rw [h] at hpre
    obtain ⟨t, ht⟩ := hpre
    have hhead : (q.dropWhile pyIsSpace).head? = some c := by
      rw [← ht]; rfl
    have hfind := List.find?_not_eq_head?_dropWhile pyIsSpace q
    rw [hhead] at hfind
    have hc := List.find?_some hfind
    simp only [Bool.not_eq_true'] at hc
    exact List.dropWhile_cons_of_neg (by simp [hc])

theorem parse_query_eq_parseSpecC6 (q : Str) : parse_query q = parseSpecC6 q := by
  unfold parse_query splitMax1 parseSpecC6
  rw [dropWhile_pyStrip q]
  by_cases h : pyStrip q = []
  · simp [h]
  · by_cases h2 : ((pyStrip q).dropWhile (fun c => !pyIsSpace c)).dropWhile pyIsSpace = []
    · simp [h, h2]
    · simp [h, h2]

/-- String literal helper: Lean string to the embedded string type. -/
def strL (s : String) : Str := s.toList

/-- Row of the bookmarks table (`app/models.py`, class `Bookmark`).
Timestamps carry no spec content and are omitted. -/
structure Bookmark where
  id : Nat
  name : Str
  url : Str
  description : Str
  use_count : Nat
deriving Repr, DecidableEq

/-- Row of the aliases table (`app/models.py`, class `Alias`): the alias
string and the foreign key to the owning bookmark. -/
structure AliasRow where
  aliasStr : Str
  bookmark_id : Nat
deriving Repr, DecidableEq

/-- Database state: both tables, in row order (SQLAlchemy `first()` returns
the first row in table order). -/
structure DB where
  bookmarks : List Bookmark
  aliases : List AliasRow
deriving Repr, DecidableEq

/-- Embedding of `redirect_service.find_bookmark_by_name_or_alias`: exact
match on a bookmark name first, then on an alias string; the relationship
`alias.bookmark` dereferences the foreign key. -/
def find_bookmark_by_name_or_alias (command : Str) (db : DB) : Option Bookmark :=
  match db.bookmarks.find? (fun b => decide (b.name = command)) with
  | some b => some b
  | none =>
    match db.aliases.find? (fun a => decide (a.aliasStr = command)) with
    | some a => db.bookmarks.find? (fun b => decide (b.id = a.bookmark_id))
    | none => none

/-- Embedding of `redirect_service.increment_usage`: bump `use_count` of the
bookmark row and commit. -/
def increment_usage (bid : Nat) (db : DB) : DB :=
  { db with
    bookmarks := db.bookmarks.map
      (fun b => if b.id = bid then { b with use_count := b.use_count + 1 } else b) }

/-- Suggestion record built by `FuzzyMatcher.find_similar_commands` (the
dict literal in the source). Scores are rationals, since rapidfuzz returns
real-valued similarity scores in `[0, 100]`. -/
structure Suggestion where
  name : Str
  url : Str
  description : Str
  score : ℚ
  use_count : Nat
  bookmark_id : Nat
deriving Repr, DecidableEq

/-- Embedding of `redirect_service.RedirectResult`. -/
structure RedirectResult where
  url : Option Str
  suggestions : Option (List Suggestion)
deriving Repr, DecidableEq

/-- Ordering used by `matches.sort(key=lambda x: (x["score"], x["use_count"]),
reverse=True)`: `a` may precede `b` exactly when the key tuple of `a` is
lexicographically at least the key tuple of `b`. -/
def sugGE (a b : Suggestion) : Prop :=
  b.score < a.score ∨ (b.score = a.score ∧ b.use_count ≤ a.use_count)

instance : DecidableRel sugGE := fun a b => by unfold sugGE; infer_instance

instance : IsTotal Suggestion sugGE where
  total a b := by
    rcases lt_trichotomy a.score b.score with h | h | h
    · exact Or.inr (Or.inl h)
    · rcases Nat.le_total a.use_count b.use_count with hu | hu
      · exact Or.inr (Or.inr ⟨h, hu⟩)
      · exact Or.inl (Or.inr ⟨h.symm, hu⟩)
    · exact Or.inl (Or.inl h)

instance : IsTrans Suggestion sugGE where
  trans a b c hab hbc := by
    rcases hab with h1 | ⟨h1, hu1⟩ <;> rcases hbc with h2 | ⟨h2, hu2⟩
    · exact Or.inl (h2.trans h1)
    · exact Or.inl (h2.trans_lt h1)
    · exact Or.inl (h2.trans_eq h1)
    · exact Or.inr ⟨h2.trans h1, hu2.trans hu1⟩

/-- The deduplicating truncation loop ending
`FuzzyMatcher.find_similar_commands`: walk the sorted matches, append each
one whose `bookmark_id` was not yet seen, and stop as soon as the
accumulated list has reached `limit` elements — the length test happens
AFTER appending, exactly as in the source. The accumulator is kept in
reverse order. -/
def dedupLoop (limit : Int) : List Suggestion → List Nat → List Suggestion → List Suggestion
  | [], _, acc => acc.reverse
  | m :: rest, seen, acc =>
    if m.bookmark_id ∈ seen then dedupLoop limit rest seen acc
    else if (acc.length + 1 : Int) ≥ limit then (m :: acc).reverse
    else dedupLoop limit rest (m.bookmark_id :: seen) (m :: acc)

/-- Embedding of `FuzzyMatcher.find_similar_commands`, parameterised by the
similarity metric `scoreOf` (rapidfuzz `fuzz.ratio`) and by the command
snapshot (the cached dict, as an association list in insertion order).
Python's stable `sort` with key `(score, use_count)` and `reverse=True` is
embedded as insertion sort by `sugGE`; both are stable sorts by the same
total preorder, hence compute the same list. `scoredMatches` is the loop
building `matches`: one suggestion per snapshot entry whose score reaches
the threshold. -/
def scoredMatches (scoreOf : Str → Str → ℚ) (threshold : ℚ)
    (commands : List (Str × Bookmark)) (query : Str) : List Suggestion :=
  commands.filterMap (fun cb =>
    if threshold ≤ scoreOf (pyLower query) (pyLower cb.1) then
      some { name := cb.1, url := cb.2.url, description := cb.2.description,
             score := scoreOf (pyLower query) (pyLower cb.1),
             use_count := cb.2.use_count, bookmark_id := cb.2.id }
    else none)

def find_similar_commands (scoreOf : Str → Str → ℚ) (threshold : ℚ) (limit : Int)
    (commands : List (Str × Bookmark)) (query : Str) : List Suggestion :=
  if commands = [] then []
  else
    dedupLoop limit
      (List.insertionSort sugGE (scoredMatches scoreOf threshold commands query)) [] []

/-- The fuzzy matcher as passed to `process_redirect`: its configuration and
the command snapshot its cache currently holds. -/
structure FuzzyMatcher where
  scoreOf : Str → Str → ℚ
  threshold : ℚ
  limit : Int
  commands : List (Str × Bookmark)

/-- Embedding of `redirect_service.process_redirect`. The outcome is
returned together with the post-state of the database: the synchronous
`use_count` commit on a hit is modelled by the returned state. The guard
`not query or not query.strip()` is equivalent to `pyStrip query = []`. -/
def process_redirect (db : DB) (query : Str) (fuzzy : Option FuzzyMatcher)
    (default_fallback_url : Str) : RedirectResult × DB :=
  if pyStrip query = [] then
    ({ url := some (replaceMarker [] default_fallback_url), suggestions := none }, db)
  else
    match find_bookmark_by_name_or_alias (parse_query query).1 db with
    | some b =>
      ({ url := some (substitute_args b.url (parse_query query).2), suggestions := none },
       increment_usage b.id db)
    | none =>
      match fuzzy with
      | some fm =>
        if find_similar_commands fm.scoreOf fm.threshold fm.limit fm.commands
            (parse_query query).1 = [] then
          ({ url := some (substitute_args default_fallback_url query), suggestions := none }, db)
        else
          ({ url := none, suggestions := some (find_similar_commands fm.scoreOf fm.threshold
              fm.limit fm.commands (parse_query query).1) }, db)
      | none =>
        ({ url := some (substitute_args default_fallback_url query), suggestions := none }, db)

/-- Embedding of `routes/bookmarks.normalize_command`:
`command.lower().strip()`. -/
def normalize_command (command : Str) : Str := pyStrip (pyLower command)

/-- Outcome of a CRUD write endpoint; the HTTP status and message text are
elided, only acceptance versus rejection matters to the claims. -/
inductive WriteResult where
  | rejected
  | created
deriving Repr, DecidableEq

/-- Embedding of `routes/bookmarks.create_bookmark`. `newId` stands for the
autoincrement id assigned at flush time. The endpoint rejects a missing
name or url and a duplicate bookmark NAME; it never consults the aliases
table for the new name. Provided aliases are normalized and inserted,
dropping empty ones. -/
def create_bookmark (db : DB) (nameArg urlArg descArg : Str)
    (aliasesArg : List Str) (newId : Nat) : WriteResult × DB :=
  if nameArg = [] ∨ urlArg = [] then (.rejected, db)
  else
    let normalized_name := normalize_command nameArg
    match db.bookmarks.find? (fun b => decide (b.name = normalized_name)) with
    | some _ => (.rejected, db)
    | none =>
      let bookmark : Bookmark :=
        { id := newId, name := normalized_name, url := urlArg,
          description := descArg, use_count := 0 }
      let newAliases := aliasesArg.filterMap (fun an =>
        let na := normalize_command an
        if na = [] then none else some { aliasStr := na, bookmark_id := newId })
      (.created, { db with
                   bookmarks := db.bookmarks ++ [bookmark]
                   aliases := db.aliases ++ newAliases })

/-- Embedding of `routes/bookmarks.add_alias`. Rejects an unknown bookmark
id (404), a missing alias, a duplicate alias string, and an alias equal to
an existing bookmark name; otherwise inserts the alias row. -/
def add_alias (db : DB) (bookmark_id : Nat) (aliasArg : Str) : WriteResult × DB :=
  if (db.bookmarks.find? (fun b => decide (b.id = bookmark_id))).isNone then (.rejected, db)
  else if aliasArg = [] then (.rejected, db)
  else
    let normalized_alias := normalize_command aliasArg
    if (db.aliases.find? (fun a => decide (a.aliasStr = normalized_alias))).isSome then
      (.rejected, db)
    else if (db.bookmarks.find? (fun b => decide (b.name = normalized_alias))).isSome then
      (.rejected, db)
    else
      (.created, { db with
        aliases := db.aliases ++ [{ aliasStr := normalized_alias, bookmark_id := bookmark_id }] })

/-- Global namespace invariant (spec §3): all bookmark names and alias
strings are pairwise distinct. -/
def namespaceOk (db : DB) : Prop :=
  (db.bookmarks.map Bookmark.name ++ db.aliases.map AliasRow.aliasStr).Nodup

instance (db : DB) : Decidable (namespaceOk db) := by
  unfold namespaceOk; infer_instance

/-- Observation of one bookmark's `use_count` through a read by id. -/
def useCountOf (db : DB) (bid : Nat) : Option Nat :=
  (db.bookmarks.find? (fun b => decide (b.id = bid))).map Bookmark.use_count

/-- Sample bookmark used for concrete instantiations. -/
def sampleBookmark : Bookmark :=
  { id := 1, name := strL (r"google"), url := strL (r"https://www.google.com/search?q=%s"),
    description := [], use_count := 0 }

/-- Sample database: one bookmark named `google` with alias `g`. -/
def sampleDB : DB :=
  { bookmarks := [sampleBookmark], aliases := [{ aliasStr := strL (r"g"), bookmark_id := 1 }] }

/-- A concrete similarity metric for instantiations: the score is 100 on
identical strings and 0 otherwise. Any faithful model of `fuzz.ratio`
agrees with it on the pairs the concrete theorems evaluate, since
rapidfuzz scores two identical strings at the maximum 100. -/
def exactScore : Str → Str → ℚ := fun a b => if a = b then 100 else 0

/-- If the command matches no bookmark name and no alias string, resolution
fails. -/
theorem find_bookmark_none (cmd : Str) (db : DB)
    (hm : ∀ b ∈ db.bookmarks, b.name ≠ cmd)
    (ha : ∀ a ∈ db.aliases, a.aliasStr ≠ cmd) :
    find_bookmark_by_name_or_alias cmd db = none := by
  unfold find_bookmark_by_name_or_alias
  rw [List.find?_eq_none.mpr (fun b hb => by simpa using hm b hb),
    List.find?_eq_none.mpr (fun a haa => by simpa using ha a haa)]

/-- Fuzzy matcher instance whose snapshot holds the sample bookmark; with
threshold 0 every snapshot entry is suggested. -/
def fmZero : FuzzyMatcher :=
  { scoreOf := exactScore, threshold := 0, limit := 3,
    commands := [(strL (r"google"), sampleBookmark)] }

/-- Fuzzy matcher instance with the default configuration (threshold 60,
limit 3) over the sample snapshot. -/
def fmDefault : FuzzyMatcher :=
  { scoreOf := exactScore, threshold := 60, limit := 3,
    commands := [(strL (r"google"), sampleBookmark)] }

/-- C6: `parse_query` trims surrounding whitespace, splits on the first
whitespace run into at most two parts, lower-cases the first part as the
command (empty for empty or whitespace-only input), and keeps everything
after the first whitespace run verbatim as the args: it coincides with the
claim-level parser `parseSpecC6`, and satisfies the four concrete
examples. -/
theorem C6_parse_query_correct :
    (∀ q : Str, parse_query q = parseSpecC6 q)
    ∧ parse_query (strL (r"google hello world")) = (strL (r"google"), strL (r"hello world"))
    ∧ parse_query (strL (r"GOOGLE test")) = (strL (r"google"), strL (r"test"))
    ∧ parse_query (strL (r"")) = (strL (r""), strL (r""))
    ∧ parse_query (strL (r"  g  hi  ")) = (strL (r"g"), strL (r"hi")) :=
  ⟨parse_query_eq_parseSpecC6, by decide, by decide, by decide, by decide⟩

/-- C5: `substitute_args` replaces every occurrence of the marker `%s` with
the form/query-encoded args (space to `+`, reserved and non-ASCII
characters percent-encoded as UTF-8 bytes, per `quotePlus`), empty args
replacing every occurrence with the empty string; a marker-free template is
returned unchanged; and the three concrete examples hold. -/
theorem C5_substitute_args_correct :
    (∀ t a : Str, substitute_args t a
        = interMarker (if a = [] then [] else quotePlus a) (splitOnMarker t))
    ∧ (∀ t a : Str, containsMarker t = false → substitute_args t a = t)
    ∧ substitute_args (strL (r"https://x.com?q=%s")) (strL (r"")) = strL (r"https://x.com?q=")
    ∧ substitute_args (strL (r"https://x.com?q=%s")) (strL (r"hello world"))
        = strL (r"https://x.com?q=hello+world")
    ∧ substitute_args (strL (r"https://x.com?q=%s&s=%s")) (strL (r"a"))
        = strL (r"https://x.com?q=a&s=a") := by
  refine ⟨fun t a => ?_, fun t a h => ?_, by decide, by decide, by decide⟩
  · unfold substitute_args
    by_cases ha : a = [] <;> simp [ha, replaceMarker_eq_interMarker]
  · unfold substitute_args
    by_cases ha : a = [] <;> simp [ha, replaceMarker_no_marker _ _ h]

theorem C5_substitute_args_correct_witness :
    containsMarker (strL (r"https://example.com")) = false
    ∧ substitute_args (strL (r"https://example.com")) (strL (r"x"))
        = strL (r"https://example.com") :=
  ⟨by decide, C5_substitute_args_correct.2.1 _ _ (by decide)⟩

/-- C9: for an empty or whitespace-only raw query, `process_redirect`
returns the defined outcome: Redirect of the default fallback URL with
every marker replaced by the empty string, no suggestions, and an
unchanged database (so no bookmark's `use_count` changes). Totality of the
Lean function is the never-throws part of the contract. -/
theorem C9_empty_query_defined (db : DB) (query : Str) (fuzzy : Option FuzzyMatcher)
    (fb : Str) (h : pyStrip query = []) :
    process_redirect db query fuzzy fb
      = ({ url := some (replaceMarker [] fb), suggestions := none }, db) := by
  unfold process_redirect
  rw [if_pos h]

theorem C9_empty_query_defined_witness :
    pyStrip (strL (r"   ")) = []
    ∧ process_redirect sampleDB (strL (r"   ")) none (strL (r"https://www.google.com/search?q=%s"))
      = ({ url := some (strL (r"https://www.google.com/search?q=")), suggestions := none },
         sampleDB) := by
  refine ⟨by decide, ?_⟩
  rw [C9_empty_query_defined sampleDB _ none _ (by decide)]
  decide

/-- C10: on a miss (the parsed command matches no bookmark name and no
alias string) with the fuzzy matcher absent or returning no suggestions,
`process_redirect` redirects to the fallback template with the ENTIRE raw
query string form-encoded into it — not just the command token, not
stripped — and offers no suggestions. -/
theorem C10_fallback_uses_raw_query (db : DB) (query : Str) (fuzzy : Option FuzzyMatcher)
    (fb : Str) (hne : pyStrip query ≠ [])
    (hm : ∀ b ∈ db.bookmarks, b.name ≠ (parse_query query).1)
    (ha : ∀ a ∈ db.aliases, a.aliasStr ≠ (parse_query query).1)
    (hfz : fuzzy = none ∨ ∃ fm, fuzzy = some fm
        ∧ find_similar_commands fm.scoreOf fm.threshold fm.limit fm.commands
            (parse_query query).1 = []) :
    process_redirect db query fuzzy fb
      = ({ url := some (substitute_args fb query), suggestions := none }, db) := by
  unfold process_redirect
  rw [if_neg hne, find_bookmark_none _ db hm ha]
  rcases hfz with rfl | ⟨fm, rfl, hemp⟩
  · rfl
  · simp only [hemp, if_pos]

theorem C10_fallback_uses_raw_query_witness :
    process_redirect sampleDB (strL (r"zzzz qq")) none (strL (r"fb?q=%s"))
      = ({ url := some (strL (r"fb?q=zzzz+qq")), suggestions := none }, sampleDB) := by
  rw [C10_fallback_uses_raw_query sampleDB _ none _ (by decide) (by decide) (by decide)
    (Or.inl rfl)]
  decide

/-- C1 counterexample: a non-empty query matching nothing, with the fuzzy
matcher absent, does NOT give a no-match outcome without a redirect URL —
the source falls back to a search-engine Redirect. -/
theorem C1_counterexample :
    (process_redirect sampleDB (strL (r"zzzz")) none
        (strL (r"https://www.google.com/search?q=%s"))).1.url
      = some (strL (r"https://www.google.com/search?q=zzzz"))
    ∧ (process_redirect sampleDB (strL (r"zzzz")) none
        (strL (r"https://www.google.com/search?q=%s"))).1.url ≠ none := by
  exact ⟨by decide, by decide⟩

/-- C1 amended: for every non-empty query whose parsed command matches no
bookmark name and no alias, when the fuzzy matcher is absent or returns an
empty suggestion list, `process_redirect` returns no suggestions and
instead the fallback Redirect of the default URL with the raw query
form-encoded into it, and the database is unchanged. -/
theorem C1_miss_fallback_redirect (db : DB) (query : Str) (fuzzy : Option FuzzyMatcher)
    (fb : Str) (hne : pyStrip query ≠ [])
    (hm : ∀ b ∈ db.bookmarks, b.name ≠ (parse_query query).1)
    (ha : ∀ a ∈ db.aliases, a.aliasStr ≠ (parse_query query).1)
    (hfz : fuzzy = none ∨ ∃ fm, fuzzy = some fm
        ∧ find_similar_commands fm.scoreOf fm.threshold fm.limit fm.commands
            (parse_query query).1 = []) :
    (process_redirect db query fuzzy fb).1.suggestions = none
    ∧ (process_redirect db query fuzzy fb).1.url = some (substitute_args fb query)
    ∧ (process_redirect db query fuzzy fb).2 = db := by
  unfold process_redirect
  rw [if_neg hne, find_bookmark_none _ db hm ha]
  rcases hfz with rfl | ⟨fm, rfl, hemp⟩
  · refine ⟨?_, ?_, ?_⟩ <;> trivial
  · simp only [hemp, if_pos]
    refine ⟨?_, ?_, ?_⟩ <;> trivial

theorem C1_miss_fallback_redirect_witness :
    (process_redirect sampleDB (strL (r"qqqq")) (some fmDefault) (strL (r"fb?q=%s"))).1.suggestions
        = none
    ∧ (process_redirect sampleDB (strL (r"qqqq")) (some fmDefault) (strL (r"fb?q=%s"))).1.url
        = some (strL (r"fb?q=qqqq"))
    ∧ (process_redirect sampleDB (strL (r"qqqq")) (some fmDefault) (strL (r"fb?q=%s"))).2
        = sampleDB := by
  have h := C1_miss_fallback_redirect sampleDB (strL (r"qqqq")) (some fmDefault)
    (strL (r"fb?q=%s")) (by decide) (by decide) (by decide)
    (Or.inr ⟨fmDefault, rfl, by decide⟩)
  exact ⟨h.1, h.2.1.trans (by decide), h.2.2⟩

/-- C7: on any query whose parsed command matches no bookmark name and no
alias string, `process_redirect` leaves the database unchanged — no
bookmark's `use_count` moves — for every fuzzy matcher, even one whose
suggestions reference existing bookmarks. -/
theorem C7_miss_no_increment (db : DB) (query : Str) (fuzzy : Option FuzzyMatcher) (fb : Str)
    (hm : ∀ b ∈ db.bookmarks, b.name ≠ (parse_query query).1)
    (ha : ∀ a ∈ db.aliases, a.aliasStr ≠ (parse_query query).1) :
    (process_redirect db query fuzzy fb).2 = db := by
  unfold process_redirect
  by_cases h : pyStrip query = []
  · rw [if_pos h]
  · rw [if_neg h, find_bookmark_none _ db hm ha]
    rcases fuzzy with _ | fm
    · rfl
    · by_cases hs : find_similar_commands fm.scoreOf fm.threshold fm.limit fm.commands
          (parse_query query).1 = []
      · simp only [hs, if_pos]
      · simp only [if_neg hs]

theorem C7_miss_no_increment_witness :
    (process_redirect sampleDB (strL (r"googl")) (some fmZero) (strL (r"fb?q=%s"))).2 = sampleDB
    ∧ (process_redirect sampleDB (strL (r"googl")) (some fmZero)
        (strL (r"fb?q=%s"))).1.suggestions ≠ none :=
  ⟨C7_miss_no_increment sampleDB (strL (r"googl")) (some fmZero) (strL (r"fb?q=%s"))
      (by decide) (by decide),
   by decide⟩

/-- In a list whose keys under `f` are pairwise distinct, `find?` by the key
of a member returns exactly that member. -/
theorem find?_key_unique {α β : Type} [DecidableEq β] (f : α → β) (l : List α) (x : α)
    (hnd : (l.map f).Nodup) (hx : x ∈ l) :
    l.find? (fun y => decide (f y = f x)) = some x := by
  induction l with
  | nil => exact absurd hx (List.not_mem_nil x)
  | cons a t ih =>
    rw [List.map_cons, List.nodup_cons] at hnd
    rcases List.mem_cons.mp hx with rfl | hxt
    · rw [List.find?_cons_of_pos _ (by simp)]
    · have hfa : ¬ (f a = f x) := fun he => hnd.1 (he ▸ List.mem_map_of_mem f hxt)
      rw [List.find?_cons_of_neg _ (by simpa using hfa)]
      exact ih hnd.2 hxt

/-- Under the namespace invariant, resolution by a bookmark's own name
finds exactly that bookmark. -/
theorem find_bookmark_by_name (db : DB) (B : Bookmark)
    (hns : namespaceOk db) (hB : B ∈ db.bookmarks) :
    find_bookmark_by_name_or_alias B.name db = some B := by
  unfold find_bookmark_by_name_or_alias
  rw [find?_key_unique Bookmark.name db.bookmarks B (List.Nodup.of_append_left hns) hB]

/-- Under the namespace invariant and distinct bookmark ids, resolution by
an alias string finds the alias owner. -/
theorem find_bookmark_by_alias (db : DB) (B : Bookmark) (a : AliasRow)
    (hids : (db.bookmarks.map Bookmark.id).Nodup)
    (hns : namespaceOk db) (hB : B ∈ db.bookmarks)
    (haMem : a ∈ db.aliases) (hlink : a.bookmark_id = B.id) :
    find_bookmark_by_name_or_alias a.aliasStr db = some B := by
  unfold find_bookmark_by_name_or_alias
  have hdisj := List.disjoint_of_nodup_append hns
  have hnone : db.bookmarks.find? (fun b => decide (b.name = a.aliasStr)) = none :=
    List.find?_eq_none.mpr (fun b hb => by
      simp only [decide_eq_true_eq]
      intro he
      exact hdisj (he ▸ List.mem_map_of_mem Bookmark.name hb)
        (List.mem_map_of_mem AliasRow.aliasStr haMem))
  rw [hnone,
    find?_key_unique AliasRow.aliasStr db.aliases a (List.Nodup.of_append_right hns) haMem]
  show db.bookmarks.find? (fun b => decide (b.id = a.bookmark_id)) = some B
  rw [hlink]
  exact find?_key_unique Bookmark.id db.bookmarks B hids hB

theorem bump_preserves_id (bid : Nat) (b : Bookmark) :
    (if b.id = bid then { b with use_count := b.use_count + 1 } else b).id = b.id := by
  split <;> rfl

/-- Incrementing a member bookmark's usage raises its observed count by
exactly one. -/
theorem useCountOf_increment_hit (db : DB) (B : Bookmark)
    (hids : (db.bookmarks.map Bookmark.id).Nodup) (hB : B ∈ db.bookmarks) :
    useCountOf (increment_usage B.id db) B.id = some (B.use_count + 1) := by
  unfold useCountOf increment_usage
  rw [List.find?_map]
  have hpred : ((fun b => decide (b.id = B.id)) ∘
      (fun b : Bookmark => if b.id = B.id then { b with use_count := b.use_count + 1 } else b))
      = (fun b : Bookmark => decide (b.id = B.id)) := by
    funext b
    simp [Function.comp, bump_preserves_id]
  rw [hpred, find?_key_unique Bookmark.id db.bookmarks B hids hB]
  simp

/-- Incrementing one bookmark's usage does not change any other observed
count. -/
theorem useCountOf_increment_other (db : DB) (bid bid2 : Nat) (hne : bid2 ≠ bid) :
    useCountOf (increment_usage bid db) bid2 = useCountOf db bid2 := by
  unfold useCountOf increment_usage
  rw [List.find?_map]
  have hpred : ((fun b => decide (b.id = bid2)) ∘
      (fun b : Bookmark => if b.id = bid then { b with use_count := b.use_count + 1 } else b))
      = (fun b : Bookmark => decide (b.id = bid2)) := by
    funext b
    simp [Function.comp, bump_preserves_id]
  rw [hpred]
  cases hf : db.bookmarks.find? (fun b => decide (b.id = bid2)) with
  | none => rfl
  | some b =>
    have hb := List.find?_some hf
    simp only [decide_eq_true_eq] at hb
    simp [hb, hne]

/-- C2: for every bookmark B and query parsing to `(cmd, args)` where cmd
equals B's name or one of B's alias strings (under the global namespace
invariant and distinct row ids), `process_redirect` returns
Redirect(substitute(B.url, args)) with no suggestions, and the committed
post-state observes B's `use_count` raised by exactly one (from
B.use_count to B.use_count + 1) while every other bookmark's count is
unchanged. The increment happening before the response is modelled by the
post-state being returned together with the outcome. -/
theorem C2_hit_redirect_and_increment (db : DB) (query : Str) (fuzzy : Option FuzzyMatcher)
    (fb : Str) (B : Bookmark) (cmd args : Str)
    (hids : (db.bookmarks.map Bookmark.id).Nodup)
    (hns : namespaceOk db)
    (hB : B ∈ db.bookmarks)
    (hq : parse_query query = (cmd, args))
    (hcne : cmd ≠ [])
    (hcmd : cmd = B.name ∨ ∃ a ∈ db.aliases, a.aliasStr = cmd ∧ a.bookmark_id = B.id) :
    (process_redirect db query fuzzy fb).1
      = { url := some (substitute_args B.url args), suggestions := none }
    ∧ useCountOf db B.id = some B.use_count
    ∧ useCountOf (process_redirect db query fuzzy fb).2 B.id = some (B.use_count + 1)
    ∧ ∀ bid, bid ≠ B.id →
        useCountOf (process_redirect db query fuzzy fb).2 bid = useCountOf db bid := by
  have hq1 : (parse_query query).1 = cmd := by rw [hq]
  have hq2 : (parse_query query).2 = args := by rw [hq]
  have hne : pyStrip query ≠ [] := by
    intro h
    apply hcne
    have hpe : parse_query query = ([], []) := by
      unfold parse_query splitMax1
      rw [h]
      rfl
    rw [hpe] at hq
    simp only [Prod.mk.injEq] at hq
    exact hq.1.symm
  have hfind : find_bookmark_by_name_or_alias cmd db = some B := by
    rcases hcmd with rfl | ⟨a, haMem, hstr, hlink⟩
    · exact find_bookmark_by_name db B hns hB
    · rw [← hstr]
      exact find_bookmark_by_alias db B a hids hns hB haMem hlink
  have hres : process_redirect db query fuzzy fb
      = ({ url := some (substitute_args B.url args), suggestions := none },
         increment_usage B.id db) := by
    unfold process_redirect
    rw [if_neg hne, hq1, hq2, hfind]
  refine ⟨by rw [hres], ?_, ?_, ?_⟩
  · unfold useCountOf
    rw [find?_key_unique Bookmark.id db.bookmarks B hids hB]
    rfl
  · rw [hres]
    exact useCountOf_increment_hit db B hids hB
  · intro bid hbne
    rw [hres]
    exact useCountOf_increment_other db B.id bid hbne

theorem C2_hit_redirect_and_increment_witness :
    (process_redirect sampleDB (strL (r"g hi there")) none (strL (r"fb?q=%s"))).1
      = { url := some (strL (r"https://www.google.com/search?q=hi+there")), suggestions := none }
    ∧ useCountOf (process_redirect sampleDB (strL (r"g hi there")) none (strL (r"fb?q=%s"))).2 1
      = some 1 := by
  have h := C2_hit_redirect_and_increment sampleDB (strL (r"g hi there")) none
    (strL (r"fb?q=%s")) sampleBookmark (strL (r"g")) (strL (r"hi there"))
    (by decide) (by decide) (by decide) (by decide) (by decide)
    (Or.inr ⟨⟨strL (r"g"), 1⟩, by decide, by decide, by decide⟩)
  exact ⟨h.1.trans (by decide), h.2.2.1⟩

/-- Every suggestion the scoring loop keeps reaches the threshold. -/
theorem scoredMatches_threshold (scoreOf : Str → Str → ℚ) (threshold : ℚ)
    (commands : List (Str × Bookmark)) (query : Str) :
    ∀ s ∈ scoredMatches scoreOf threshold commands query, threshold ≤ s.score := by
  intro s hs
  unfold scoredMatches at hs
  rw [List.mem_filterMap] at hs
  obtain ⟨cb, hcb, he⟩ := hs
  by_cases hc : threshold ≤ scoreOf (pyLower query) (pyLower cb.1)
  · rw [if_pos hc] at he
    cases he
    exact hc
  · rw [if_neg hc] at he
    cases he

/-- The deduplicating loop produces an order-preserving sublist of the
(reversed) accumulator followed by its input. -/
theorem dedupLoop_sublist (limit : Int) (l : List Suggestion) :
    ∀ (seen : List Nat) (acc : List Suggestion),
      List.Sublist (dedupLoop limit l seen acc) (acc.reverse ++ l) := by
  induction l with
  | nil =>
    intro seen acc
    simp [dedupLoop]
  | cons m rest ih =>
    intro seen acc
    unfold dedupLoop
    split
    · exact (ih seen acc).trans
        (List.Sublist.append_left (List.sublist_cons_self m rest) acc.reverse)
    · split
      · rw [List.reverse_cons]
        exact List.Sublist.append_left (List.Sublist.cons₂ m (List.nil_sublist rest)) acc.reverse
      · refine (ih _ (m :: acc)).trans ?_
        rw [List.reverse_cons, List.append_assoc, List.singleton_append]

/-- The deduplicating loop never emits two suggestions with the same
bookmark id, given that the accumulator is already deduplicated and
registered in `seen`. -/
theorem dedupLoop_nodup (limit : Int) (l : List Suggestion) :
    ∀ (seen : List Nat) (acc : List Suggestion),
      (acc.map Suggestion.bookmark_id).Nodup →
      (∀ x ∈ acc, x.bookmark_id ∈ seen) →
      ((dedupLoop limit l seen acc).map Suggestion.bookmark_id).Nodup := by
  induction l with
  | nil =>
    intro seen acc h1 h2
    rw [dedupLoop, List.map_reverse, List.nodup_reverse]
    exact h1
  | cons m rest ih =>
    intro seen acc h1 h2
    unfold dedupLoop
    split
    · exact ih seen acc h1 h2
    · rename_i hnotin
      have hmacc : (List.map Suggestion.bookmark_id (m :: acc)).Nodup := by
        rw [List.map_cons, List.nodup_cons]
        refine ⟨fun hmem => ?_, h1⟩
        obtain ⟨x, hx, hxe⟩ := List.mem_map.mp hmem
        exact hnotin (hxe ▸ h2 x hx)
      split
      · rw [List.map_reverse, List.nodup_reverse]
        exact hmacc
      · refine ih _ (m :: acc) hmacc ?_
        intro x hx
        rcases List.mem_cons.mp hx with rfl | hxa
        · exact List.mem_cons_self _ _
        · exact List.mem_cons_of_mem _ (h2 x hxa)

/-- As long as the accumulator is strictly below the limit, the loop's
output stays within the limit. -/
theorem dedupLoop_length (limit : Int) (l : List Suggestion) :
    ∀ (seen : List Nat) (acc : List Suggestion),
      (acc.length : Int) < limit →
      ((dedupLoop limit l seen acc).length : Int) ≤ limit := by
  induction l with
  | nil =>
    intro seen acc h
    rw [dedupLoop]
    simpa using le_of_lt h
  | cons m rest ih =>
    intro seen acc h
    unfold dedupLoop
    split
    · exact ih seen acc h
    · split
      · simp only [List.length_reverse, List.length_cons]
        push_cast
        omega
      · rename_i hlt
        refine ih _ (m :: acc) ?_
        simp only [List.length_cons]
        push_cast at hlt ⊢
        omega

/-- Every emitted suggestion that did not come from the accumulator is the
FIRST entry of the loop's input carrying its bookmark id. -/
theorem dedupLoop_first_occurrence (limit : Int) (l : List Suggestion) :
    ∀ (seen : List Nat) (acc : List Suggestion) (s : Suggestion),
      s ∈ dedupLoop limit l seen acc → s ∉ acc →
      s.bookmark_id ∉ seen
      ∧ l.find? (fun x => decide (x.bookmark_id = s.bookmark_id)) = some s := by
  induction l with
  | nil =>
    intro seen acc s hs hsacc
    rw [dedupLoop] at hs
    exact absurd (List.mem_reverse.mp hs) hsacc
  | cons m rest ih =>
    intro seen acc s hs hsacc
    unfold dedupLoop at hs
    split at hs
    · rename_i hin
      obtain ⟨h1, h2⟩ := ih seen acc s hs hsacc
      refine ⟨h1, ?_⟩
      rw [List.find?_cons_of_neg]
      · exact h2
      · simp only [decide_eq_true_eq]
        intro he
        exact h1 (he ▸ hin)
    · rename_i hnotin
      split at hs
      · rw [List.mem_reverse] at hs
        rcases List.mem_cons.mp hs with rfl | hsa
        · exact ⟨hnotin, by rw [List.find?_cons_of_pos _ (by simp)]⟩
        · exact absurd hsa hsacc
      · by_cases hsm : s = m
        · subst hsm
          exact ⟨hnotin, by rw [List.find?_cons_of_pos _ (by simp)]⟩
        · have hsnotmacc : s ∉ m :: acc := by
            intro hmem
            rcases List.mem_cons.mp hmem with h | h
            · exact hsm h
            · exact hsacc h
          obtain ⟨h1, h2⟩ := ih _ (m :: acc) s hs hsnotmacc
          have hsid : s.bookmark_id ∉ seen := fun hh => h1 (List.mem_cons_of_mem _ hh)
          have hmid : s.bookmark_id ≠ m.bookmark_id := fun he =>
            h1 (he ▸ List.mem_cons_self _ _)
          refine ⟨hsid, ?_⟩
          rw [List.find?_cons_of_neg]
          · exact h2
          · simp only [decide_eq_true_eq]
            intro he
            exact hmid he.symm

/-- C4 amended: for every scoring metric, threshold, snapshot, query, and
POSITIVE limit, the suggestion list is sorted by score descending with
ties broken by use_count descending, has pairwise distinct bookmark ids —
each emitted suggestion being the first (highest-ranked) occurrence of its
bookmark in the sorted matches, so a bookmark matched through both its
name and an alias appears once —, contains only suggestions reaching the
threshold, and has at most `limit` entries. For limit 0 or negative the
length bound fails on the code (see the counterexample). -/
theorem C4_suggestion_list_shape (scoreOf : Str → Str → ℚ) (threshold : ℚ) (limit : Int)
    (commands : List (Str × Bookmark)) (query : Str) (hlim : 1 ≤ limit) :
    List.Pairwise sugGE (find_similar_commands scoreOf threshold limit commands query)
    ∧ ((find_similar_commands scoreOf threshold limit commands query).map
        Suggestion.bookmark_id).Nodup
    ∧ (∀ s ∈ find_similar_commands scoreOf threshold limit commands query,
        threshold ≤ s.score)
    ∧ ((find_similar_commands scoreOf threshold limit commands query).length : Int) ≤ limit
    ∧ (∀ s ∈ find_similar_commands scoreOf threshold limit commands query,
        (List.insertionSort sugGE (scoredMatches scoreOf threshold commands query)).find?
          (fun x => decide (x.bookmark_id = s.bookmark_id)) = some s) := by
  unfold find_similar_commands
  by_cases hc : commands = []
  · rw [if_pos hc]
    refine ⟨List.Pairwise.nil, by simp, by simp, ?_, by simp⟩
    simp only [List.length_nil, Int.natCast_zero]
    omega
  · rw [if_neg hc]
    have hsorted : List.Pairwise sugGE
        (List.insertionSort sugGE (scoredMatches scoreOf threshold commands query)) :=
      List.sorted_insertionSort sugGE _
    have hsub := dedupLoop_sublist limit
      (List.insertionSort sugGE (scoredMatches scoreOf threshold commands query)) [] []
    rw [List.reverse_nil, List.nil_append] at hsub
    refine ⟨List.Pairwise.sublist hsub hsorted, dedupLoop_nodup limit _ [] [] (by simp) (by simp),
      ?_, ?_, ?_⟩
    · intro s hs
      have hmem := (List.perm_insertionSort sugGE _).mem_iff.mp (hsub.subset hs)
      exact scoredMatches_threshold scoreOf threshold commands query s hmem
    · refine dedupLoop_length limit _ [] [] ?_
      simp only [List.length_nil, Int.natCast_zero]
      omega
    · intro s hs
      exact (dedupLoop_first_occurrence limit _ [] [] s hs (List.not_mem_nil s)).2

/-- C4 counterexample: with limit 0, one suggestion is returned, so the
length bound of the unrestricted claim fails at this input. -/
theorem C4_counterexample :
    ¬ (((find_similar_commands exactScore 60 0
        [(strL (r"google"), sampleBookmark)] (strL (r"google"))).length : Int) ≤ 0) := by
  decide

theorem C4_suggestion_list_shape_witness :
    (1 : Int) ≤ 3
    ∧ ((find_similar_commands exactScore 60 3
        [(strL (r"google"), sampleBookmark)] (strL (r"google"))).length : Int) ≤ 3 :=
  ⟨by decide, (C4_suggestion_list_shape exactScore 60 3
    [(strL (r"google"), sampleBookmark)] (strL (r"google")) (by decide)).2.2.2.1⟩

/-- C3: the code contradicts the claim. With limit 0 — and likewise any
negative limit — the fuzzy engine still returns one suggestion whenever
some snapshot entry reaches the threshold, because the length check runs
only AFTER the first append. The claim (and the engine's own docstring,
maximum of `limit` results) demands an empty list. -/
theorem C3_limit_zero_bug :
    find_similar_commands exactScore 60 0 [(strL (r"google"), sampleBookmark)]
        (strL (r"google"))
      = [{ name := strL (r"google"), url := sampleBookmark.url, description := [],
           score := 100, use_count := 0, bookmark_id := 1 }]
    ∧ find_similar_commands exactScore 60 (-1) [(strL (r"google"), sampleBookmark)]
        (strL (r"google")) ≠ [] :=
  ⟨by decide, by decide⟩

/-- C8: the code contradicts the claim at the create write boundary.
Starting from a state satisfying the namespace invariant (bookmark
`google` with alias `g`), creating a bookmark named `g` is ACCEPTED —
`create_bookmark` checks the new name only against bookmark names, never
against alias strings — and the resulting state violates the invariant.
By contrast the alias endpoint does check both directions, rejecting an
alias equal to an existing bookmark name. -/
theorem C8_create_accepts_alias_collision :
    namespaceOk sampleDB
    ∧ (create_bookmark sampleDB (strL (r"g")) (strL (r"https://example.org")) [] [] 2).1
        = WriteResult.created
    ∧ ¬ namespaceOk
        (create_bookmark sampleDB (strL (r"g")) (strL (r"https://example.org")) [] [] 2).2
    ∧ (add_alias sampleDB 1 (strL (r"google"))).1 = WriteResult.rejected :=
  ⟨by decide, by decide, by decide, by decide⟩
